import Mathlib

/-!
Verification of `mergeResolvers` from `packages/merge/src/merge-resolvers.ts`.

The embedding models JavaScript resolver-map values as finite trees
(`JVal`/`JList`/`JMap`), resolver definitions as a tagged union
(`ResolversDefinition`), and the merge procedure as a structurally
recursive function faithful to the source.  `mergeDeep` lives in
`@graphql-tools/utils` (not part of the merge package's source file) and is
modelled from the specification's description of deep merging.
-/

mutual
/-- A JavaScript value as it occurs inside a resolver map: an opaque
non-object leaf (resolver function, scalar, ...), an array, or a plain
object (a mapping from string keys to values, in insertion order). -/
inductive JVal where
  | leaf : Nat → JVal
  | arr : JList → JVal
  | obj : JMap → JVal
/-- A list of JavaScript values (an array's elements, in order). -/
inductive JList where
  | nil : JList
  | cons : JVal → JList → JList
/-- A JavaScript plain object: ordered key/value entries.  Real JS objects
never repeat a key; well-formedness is tracked by `WFmap` below. -/
inductive JMap where
  | nil : JMap
  | cons : String → JVal → JMap → JMap
end

/-- Property read `m[k]`: the value of the first entry with key `k`. -/
def lookupJ : JMap → String → Option JVal
  | .nil, _ => none
  | .cons k₂ v rest, k => if k₂ = k then some v else lookupJ rest k

/-- Property write `m[k] = v`: replaces the value of an existing key in
place (keeping its position), otherwise appends the new entry at the end,
exactly as JS object assignment orders keys. -/
def setKey : JMap → String → JVal → JMap
  | .nil, k, v => .cons k v .nil
  | .cons k₂ v₂ rest, k, v =>
    if k₂ = k then .cons k v rest else .cons k₂ v₂ (setKey rest k v)

/-- Property deletion `delete m[k]`: removes the entry (all entries, which
for a duplicate-free JS object is the one entry) with key `k`. -/
def removeKey : JMap → String → JMap
  | .nil, _ => .nil
  | .cons k₂ v rest, k =>
    if k₂ = k then removeKey rest k else .cons k₂ v (removeKey rest k)

/-- Whether the object has an entry with key `k` (`k in m`). -/
def containsKey : JMap → String → Bool
  | .nil, _ => false
  | .cons k₂ _ rest, k => k₂ = k || containsKey rest k

/-- Concatenation of the entry lists of two objects. -/
def appendJ : JMap → JMap → JMap
  | .nil, b => b
  | .cons k v rest, b => .cons k v (appendJ rest b)

/-- Keys of the object spine are pairwise distinct (always true of a real
JS object). -/
def noDupKeys : JMap → Bool
  | .nil => true
  | .cons k _ rest => !containsKey rest k && noDupKeys rest

mutual
/-- A value is well-formed when every object reachable in it has
duplicate-free keys; every value decoded from a real JS object is. -/
def WFv : JVal → Bool
  | .leaf _ => true
  | .arr xs => WFvs xs
  | .obj fs => noDupKeys fs && WFfs fs
/-- All values of a list are well-formed. -/
def WFvs : JList → Bool
  | .nil => true
  | .cons v vs => WFv v && WFvs vs
/-- All values of an object's entries are well-formed. -/
def WFfs : JMap → Bool
  | .nil => true
  | .cons _ v rest => WFv v && WFfs rest
end

/-- A resolver map is well-formed when it is well-formed as an object. -/
def WFmap (m : JMap) : Bool := noDupKeys m && WFfs m

mutual
/-- Size measure of a value, used for strong induction. -/
def sizeV : JVal → Nat
  | .leaf _ => 1
  | .arr xs => 1 + sizeVs xs
  | .obj fs => 1 + sizeFs fs
/-- Size measure of a value list. -/
def sizeVs : JList → Nat
  | .nil => 1
  | .cons v vs => 1 + sizeV v + sizeVs vs
/-- Size measure of an object. -/
def sizeFs : JMap → Nat
  | .nil => 1
  | .cons _ v rest => 1 + sizeV v + sizeFs rest
end

/-- Entry `(k, v)` occurs on the spine of the object. -/
def entryMem : JMap → String → JVal → Prop
  | .nil, _, _ => False
  | .cons k₂ v₂ rest, k, v => (k₂ = k ∧ v₂ = v) ∨ entryMem rest k v

/-- Modelled from the spec: `mergeDeep` of `@graphql-tools/utils` (not part
of this source file).  "Deep-merge means: recursively merge mapping values
key-by-key; when both sides hold a mapping for the same key, merge the two
mappings recursively; otherwise the later value replaces the earlier one;
arrays and scalars are replaced wholesale."  Existing keys keep their
position, new keys are appended, as JS object assignment orders keys. -/
def mergeDeep : JMap → JMap → JMap
  | target, .nil => target
  | target, .cons k v rest =>
    mergeDeep
      (match lookupJ target k, v with
       | some (.obj t), .obj s => setKey target k (.obj (mergeDeep t s))
       | _, _ => setKey target k v)
      rest

/-- The merged value written for one source key: when the target already
holds a mapping under `k` and the source value is a mapping too, the two
are merged recursively; otherwise the (later) source value replaces the
earlier one wholesale. -/
def mergeAt (target : JMap) (k : String) (v : JVal) : JVal :=
  match lookupJ target k, v with
  | some (.obj t), .obj s => .obj (mergeDeep t s)
  | _, _ => v

/-- Modelled from the spec: one step of `resolvers.concat(factoryResults)
.reduce(mergeDeep, {})`.  The collected `resolvers` array may hold `null`
(JS `typeof null === 'object'`); the spec states that a definition that is
neither a mapping nor a function "is silently ignored — dropped from the
merge", so a `null` source leaves the accumulator unchanged. -/
def mergeSrc (acc : JMap) : Option JMap → JMap
  | none => acc
  | some m => mergeDeep acc m

/-- The characters of a string, split at every '.' character: the model of
JavaScript `exclusion.split('.')` (which splits on every separator
occurrence).  `acc` holds the reversed characters of the current segment. -/
def splitDotAux : List Char → List Char → List String
  | [], acc => [String.mk acc.reverse]
  | c :: cs, acc =>
    if c = '.' then String.mk acc.reverse :: splitDotAux cs []
    else splitDotAux cs (c :: acc)

/-- JavaScript `s.split('.')`. -/
def splitOnDot (s : String) : List String := splitDotAux s.data []

/-- The string contains no '.' character. -/
def noDot (s : String) : Bool := s.data.all (fun c => c != '.')

/-- Additional options for merging resolvers (`MergeResolversOptions`). -/
structure MergeResolversOptions where
  exclusions : Option (List String)

/-- One pass of the exclusion loop body from the source:
`const [typeName, fieldName] = exclusion.split('.');
 if (!fieldName || fieldName === '*') delete result[typeName];
 else if (result[typeName]) delete result[typeName][fieldName];`.
The destructuring takes the first two segments of the full split; a missing
or empty second segment is falsy.  Deleting a field of a non-object value
is a no-op on the value (we do not model array element holes; resolver
type entries are objects). -/
def applyExclusion (m : JMap) (exclusion : String) : JMap :=
  match splitOnDot exclusion with
  | [] => m
  | [typeName] => removeKey m typeName
  | typeName :: fieldName :: _ =>
    if fieldName = "" ∨ fieldName = "*" then removeKey m typeName
    else
      match lookupJ m typeName with
      | some (.obj fields) => setKey m typeName (.obj (removeKey fields fieldName))
      | some _ => m
      | none => m

mutual
/-- A resolver definition as the source's dynamic dispatch distinguishes
values: a plain object (`typeof === 'object'`), a function, an array
(`Array.isArray`), `null` (also `typeof 'object'`), or another primitive
(number, string) that matches none of the source's checks. -/
inductive ResolversDefinition where
  | map : JMap → ResolversDefinition
  | factory : (List JVal → JMap) → ResolversDefinition
  | group : RDefList → ResolversDefinition
  | nullV : ResolversDefinition
  | num : Int → ResolversDefinition
  | str : String → ResolversDefinition
/-- A list of resolver definitions (the input array). -/
inductive RDefList where
  | nil : RDefList
  | cons : ResolversDefinition → RDefList → RDefList
end

/-- Number of elements of a definition list. -/
def lengthRDs : RDefList → Nat
  | .nil => 0
  | .cons _ rest => 1 + lengthRDs rest

/-- Concatenation of two definition lists. -/
def appendRDs : RDefList → RDefList → RDefList
  | .nil, b => b
  | .cons d rest, b => .cons d (appendRDs rest b)

mutual
/-- Group-nesting size of a definition, the measure bounding the
recursion depth of `mergeResolvers`. -/
def sizeRD : ResolversDefinition → Nat
  | .group ds => 1 + sizeRDs ds
  | _ => 1
/-- Group-nesting size of a definition list. -/
def sizeRDs : RDefList → Nat
  | .nil => 1
  | .cons d rest => 1 + sizeRD d + sizeRDs rest
end

/-- The `resolversFactories` array collected by the classification loop:
every flattened definition that is a function, in order. -/
def collectFactories : RDefList → List (List JVal → JMap)
  | .nil => []
  | .cons d rest =>
    match d with
    | .factory f => f :: collectFactories rest
    | _ => collectFactories rest

/-- The `resolvers` array collected by the classification loop: every
flattened definition with `typeof === 'object'`, in order.  `null` passes
that check and is collected as `none`; numbers and strings match no branch
and are dropped. -/
def collectResolvers : RDefList → List (Option JMap)
  | .nil => []
  | .cons d rest =>
    match d with
    | .map m => some m :: collectResolvers rest
    | .nullV => none :: collectResolvers rest
    | _ => collectResolvers rest

/-- The exclusion post-processing step of the source.  When the merge
result is the composed factory function, the `delete` statements only
touch properties of the function object and do not change the map any
invocation returns, so the returned definition is unchanged. -/
def applyExclusions (result : ResolversDefinition)
    (options : Option MergeResolversOptions) : ResolversDefinition :=
  match options with
  | some o =>
    match o.exclusions with
    | some exs =>
      match result with
      | .map m => .map (exs.foldl applyExclusion m)
      | r => r
    | none => result
  | none => result

/-- The merge of the collected classification arrays: if any factory was
collected, a composed factory that invokes every collected factory with
its runtime arguments and reduces the direct maps followed by the
factory-produced maps with `mergeDeep` from `{}`; otherwise the reduction
of the direct maps alone. -/
def buildFrom (resolversFactories : List (List JVal → JMap))
    (resolvers : List (Option JMap)) : ResolversDefinition :=
  if resolversFactories.isEmpty then
    .map (resolvers.foldl mergeSrc .nil)
  else
    .factory (fun args =>
      (resolvers ++ resolversFactories.map (fun f => some (f args))).foldl mergeSrc .nil)

/-- The merge of the classified definitions of a flattened input list. -/
def buildResult (flat : RDefList) : ResolversDefinition :=
  buildFrom (collectFactories flat) (collectResolvers flat)

mutual
/-- `mergeResolvers(resolversDefinitions, options)` from
`packages/merge/src/merge-resolvers.ts`: empty input yields `{}`; a
singleton array is unwrapped (a nested array is merged recursively with no
options, anything else returned unchanged); otherwise each definition is
flattened (arrays replaced by their recursive merge), classified as
factory or object, merged, and the exclusions of `options` applied. -/
def mergeResolvers : RDefList → Option MergeResolversOptions → ResolversDefinition
  | .nil, _ => .map .nil
  | .cons singleDefinition .nil, _ =>
    match singleDefinition with
    | .group ds => mergeResolvers ds none
    | d => d
  | .cons d1 (.cons d2 rest), options =>
    applyExclusions
      (buildResult (.cons (flattenOne d1) (.cons (flattenOne d2) (flattenDefs rest))))
      options

/-- The in-place replacement of one definition by the flattening loop:
`if (Array.isArray(resolversDefinition)) resolversDefinition =
mergeResolvers(resolversDefinition);`. -/
def flattenOne : ResolversDefinition → ResolversDefinition
  | .group ds => mergeResolvers ds none
  | d => d

/-- The flattening loop applied to a whole definition list. -/
def flattenDefs : RDefList → RDefList
  | .nil => .nil
  | .cons d rest => .cons (flattenOne d) (flattenDefs rest)
end

/-- The source guard `if (!resolversDefinitions || length === 0)`: a
missing (`undefined`/`null`) definitions argument yields `{}` exactly like
an empty array. -/
def mergeResolversJS (resolversDefinitions : Option RDefList)
    (options : Option MergeResolversOptions) : ResolversDefinition :=
  match resolversDefinitions with
  | none => .map .nil
  | some defs => mergeResolvers defs options

/-- Flattening of a definition list where every recursive merge of a
nested array may spend at most `fuel` steps; `none` when some branch runs
out of fuel. -/
def flattenDefsWith (f : ResolversDefinition → Option ResolversDefinition) :
    RDefList → Option RDefList
  | .nil => some .nil
  | .cons d rest =>
    match f d, flattenDefsWith f rest with
    | some d₂, some rest₂ => some (.cons d₂ rest₂)
    | _, _ => none

/-- Step-counting variant of `mergeResolvers`: each recursive unwrapping of
a nested array consumes one unit of fuel, and the computation reports
`none` when the budget is exhausted.  Used to state that the recursion of
`mergeResolvers` terminates within a budget bounded by the nesting
structure of its input. -/
def mergeResolversFuel : Nat → RDefList → Option MergeResolversOptions →
    Option ResolversDefinition
  | 0, _, _ => none
  | n+1, defs, options =>
    match defs with
    | .nil => some (.map .nil)
    | .cons singleDefinition .nil =>
      match singleDefinition with
      | .group ds => mergeResolversFuel n ds none
      | d => some d
    | .cons d1 (.cons d2 rest) =>
      match flattenDefsWith
          (fun d => match d with
            | .group ds => mergeResolversFuel n ds none
            | d => some d)
          (.cons d1 (.cons d2 rest)) with
      | some flat => some (applyExclusions (buildResult flat) options)
      | none => none

/-- The exclusion processing as claim C3 words it: the exclusion string is
split at its FIRST '.' only; the whole type entry is deleted exactly when
there is no '.' or the entire part after the first '.' is `*`; otherwise
the field named by the entire part after the first '.' is deleted.  Kept
for comparison with the source-faithful `applyExclusion`. -/
def splitFirstDotAux : List Char → List Char → String × Option String
  | [], acc => (String.mk acc.reverse, none)
  | c :: cs, acc =>
    if c = '.' then (String.mk acc.reverse, some (String.mk cs))
    else splitFirstDotAux cs (c :: acc)

/-- The per-exclusion deletion as claim C3 describes it (split on the
first '.' only). -/
def applyExclusionClaimed (m : JMap) (exclusion : String) : JMap :=
  match splitFirstDotAux exclusion.data [] with
  | (typeName, none) => removeKey m typeName
  | (typeName, some fieldName) =>
    if fieldName = "*" then removeKey m typeName
    else
      match lookupJ m typeName with
      | some (.obj fields) => setKey m typeName (.obj (removeKey fields fieldName))
      | some _ => m
      | none => m

/-- The deletion `delete result[typeName][fieldName]` guarded by the
existence of `result[typeName]`, as a standalone operation (used to state
the amended C3). -/
def deleteField (m : JMap) (typeName fieldName : String) : JMap :=
  match lookupJ m typeName with
  | some (.obj fields) => setKey m typeName (.obj (removeKey fields fieldName))
  | some _ => m
  | none => m

/-- Whether a flattened definition is one the classification loop never
collects into the merge (it is neither a function nor a plain object,
apart from `null`, which is collected but contributes nothing). -/
def isDropped : ResolversDefinition → Bool
  | .nullV => true
  | .num _ => true
  | .str _ => true
  | _ => false

/-- Whether a definition is an array (a Group). -/
def isGroup : ResolversDefinition → Bool
  | .group _ => true
  | _ => false

/-- Whether a value is a plain object (a mapping). -/
def isObjV : JVal → Bool
  | .obj _ => true
  | _ => false

/-- Observation distinguishing merge results: whether a result map has a
top-level entry for `k` (a non-map result observes `true`). -/
def hasTopLevelKey (r : ResolversDefinition) (k : String) : Bool :=
  match r with
  | .map m => containsKey m k
  | _ => true

/-- Top-level field lookup `m[t][f]` of a resolver map, `none` when the
type entry is absent or not an object. -/
def lookupField (m : JMap) (t f : String) : Option JVal :=
  match lookupJ m t with
  | some (.obj fields) => lookupJ fields f
  | _ => none

/-- A list of plain resolver maps as a definition list. -/
def mapsToDefs : List JMap → RDefList
  | [] => .nil
  | m :: ms => .cons (.map m) (mapsToDefs ms)

/-- Induction over the entry spine of an object (the nested values need no
motive, so this avoids the mutual recursor). -/
theorem jmapSpineInd {motive : JMap → Prop} (hnil : motive .nil)
    (hcons : ∀ k v rest, motive rest → motive (.cons k v rest)) : ∀ m, motive m
  | .nil => hnil
  | .cons k v rest => hcons k v rest (jmapSpineInd hnil hcons rest)

/-- Induction over the spine of a definition list. -/
theorem rdefListSpineInd {motive : RDefList → Prop} (hnil : motive .nil)
    (hcons : ∀ d rest, motive rest → motive (.cons d rest)) : ∀ l, motive l
  | .nil => hnil
  | .cons d rest => hcons d rest (rdefListSpineInd hnil hcons rest)

theorem lookup_setKey_self (m : JMap) (k : String) (v : JVal) :
    lookupJ (setKey m k v) k = some v := by
  induction m using jmapSpineInd with
  | hnil => simp [setKey, lookupJ]
  | hcons k₂ v₂ rest ih =>
    by_cases h : k₂ = k
    · simp [setKey, h, lookupJ]
    · simp [setKey, h, lookupJ, ih]

theorem lookup_setKey_ne (m : JMap) (k₂ k : String) (v : JVal) (h : k₂ ≠ k) :
    lookupJ (setKey m k₂ v) k = lookupJ m k := by
  induction m using jmapSpineInd with
  | hnil => simp [setKey, lookupJ, h]
  | hcons k₃ v₃ rest ih =>
    by_cases h₃ : k₃ = k₂
    · subst h₃
      simp [setKey, lookupJ, h]
    · simp [setKey, h₃, lookupJ, ih]

theorem setKey_of_lookup (m : JMap) (k : String) (v : JVal)
    (h : lookupJ m k = some v) : setKey m k v = m := by
  induction m using jmapSpineInd with
  | hnil => simp [lookupJ] at h
  | hcons k₂ v₂ rest ih =>
    by_cases h₂ : k₂ = k
    · subst h₂
      simp [lookupJ] at h
      simp [setKey, h]
    · simp [lookupJ, h₂] at h
      simp [setKey, h₂, ih h]

theorem lookup_eq_none_of_not_contains (m : JMap) (k : String)
    (h : containsKey m k = false) : lookupJ m k = none := by
  induction m using jmapSpineInd with
  | hnil => simp [lookupJ]
  | hcons k₂ v₂ rest ih =>
    simp [containsKey] at h
    simp [lookupJ, h.1, ih h.2]

theorem contains_of_entryMem (m : JMap) (k : String) (v : JVal)
    (h : entryMem m k v) : containsKey m k = true := by
  induction m using jmapSpineInd with
  | hnil => simp [entryMem] at h
  | hcons k₂ v₂ rest ih =>
    simp [entryMem] at h
    rcases h with ⟨hk, _⟩ | h
    · simp [containsKey, hk]
    · simp [containsKey, ih h]

theorem lookup_of_entryMem_nodup (m : JMap) (k : String) (v : JVal)
    (hnd : noDupKeys m = true) (h : entryMem m k v) : lookupJ m k = some v := by
  induction m using jmapSpineInd with
  | hnil => simp [entryMem] at h
  | hcons k₂ v₂ rest ih =>
    simp [noDupKeys] at hnd
    simp [entryMem] at h
    rcases h with ⟨hk, hv⟩ | h
    · simp [lookupJ, hk, hv]
    · have hk₂ : k₂ ≠ k := by
        intro hk
        subst hk
        exact absurd (contains_of_entryMem rest k₂ v h) (by simp [hnd.1])
      simp [lookupJ, hk₂, ih hnd.2 h]

theorem lookup_appendJ_of_none (a b : JMap) (k : String)
    (h : lookupJ a k = none) : lookupJ (appendJ a b) k = lookupJ b k := by
  induction a using jmapSpineInd with
  | hnil => simp [appendJ]
  | hcons k₂ v₂ rest ih =>
    by_cases h₂ : k₂ = k
    · simp [lookupJ, h₂] at h
    · simp [lookupJ, h₂] at h
      simp [appendJ, lookupJ, h₂, ih h]

theorem setKey_of_absent (m : JMap) (k : String) (v : JVal)
    (h : lookupJ m k = none) : setKey m k v = appendJ m (.cons k v .nil) := by
  induction m using jmapSpineInd with
  | hnil => simp [setKey, appendJ]
  | hcons k₂ v₂ rest ih =>
    by_cases h₂ : k₂ = k
    · simp [lookupJ, h₂] at h
    · simp [lookupJ, h₂] at h
      simp [setKey, h₂, appendJ, ih h]

theorem appendJ_nil_right (a : JMap) : appendJ a .nil = a := by
  induction a using jmapSpineInd with
  | hnil => rfl
  | hcons k v rest ih => simp [appendJ, ih]

theorem appendJ_assoc (a b c : JMap) :
    appendJ (appendJ a b) c = appendJ a (appendJ b c) := by
  induction a using jmapSpineInd with
  | hnil => rfl
  | hcons k v rest ih => simp [appendJ, ih]

theorem sizeV_pos (v : JVal) : 1 ≤ sizeV v := by
  cases v <;> simp [sizeV]

theorem sizeFs_pos (m : JMap) : 1 ≤ sizeFs m := by
  cases m <;> simp [sizeFs] <;> omega

theorem mergeDeep_nil (target : JMap) : mergeDeep target .nil = target := by
  simp [mergeDeep]

theorem mergeDeep_cons (target : JMap) (k : String) (v : JVal) (rest : JMap) :
    mergeDeep target (.cons k v rest)
      = mergeDeep (setKey target k (mergeAt target k v)) rest := by
  rcases hl : lookupJ target k with _ | w
  · cases v <;> simp [mergeDeep, mergeAt, hl]
  · cases w <;> cases v <;> simp [mergeDeep, mergeAt, hl]

theorem mergeAt_of_none (target : JMap) (k : String) (v : JVal)
    (h : lookupJ target k = none) : mergeAt target k v = v := by
  cases v <;> simp [mergeAt, h]

theorem mergeAt_obj (target : JMap) (k : String) (t s : JMap)
    (h : lookupJ target k = some (.obj t)) :
    mergeAt target k (.obj s) = .obj (mergeDeep t s) := by
  simp [mergeAt, h]

theorem mergeAt_of_not_obj (target : JMap) (k : String) (v : JVal)
    (h : isObjV v = false) : mergeAt target k v = v := by
  rcases hl : lookupJ target k with _ | w
  · exact mergeAt_of_none target k v hl
  · cases w <;> cases v <;> simp [isObjV] at h <;> simp [mergeAt, hl]

theorem mergeAt_of_target_not_obj (target : JMap) (k : String) (v tv : JVal)
    (h : lookupJ target k = some tv) (ht : isObjV tv = false) :
    mergeAt target k v = v := by
  cases tv <;> cases v <;> simp [isObjV] at ht <;> simp [mergeAt, h]

theorem mergeAt_congr (t₁ t₂ : JMap) (k : String) (v : JVal)
    (h : lookupJ t₁ k = lookupJ t₂ k) : mergeAt t₁ k v = mergeAt t₂ k v := by
  simp [mergeAt, h]

theorem lookup_mergeDeep_of_absent (src : JMap) : ∀ (target : JMap) (k : String),
    lookupJ src k = none → lookupJ (mergeDeep target src) k = lookupJ target k := by
  induction src using jmapSpineInd with
  | hnil => intro target k _; rw [mergeDeep_nil]
  | hcons k₂ v rest ih =>
    intro target k h
    by_cases hk : k₂ = k
    · simp [lookupJ, hk] at h
    · simp [lookupJ, hk] at h
      rw [mergeDeep_cons, ih _ k h, lookup_setKey_ne _ _ _ _ hk]

theorem lookup_mergeDeep_of_mem (src : JMap) : ∀ (target : JMap) (k : String) (v : JVal),
    noDupKeys src = true → lookupJ src k = some v →
    lookupJ (mergeDeep target src) k = some (mergeAt target k v) := by
  induction src using jmapSpineInd with
  | hnil => intro target k v _ h; simp [lookupJ] at h
  | hcons k₂ v₂ rest ih =>
    intro target k v hnd h
    simp [noDupKeys] at hnd
    by_cases hk : k₂ = k
    · subst hk
      simp [lookupJ] at h
      subst h
      have hrest : lookupJ rest k₂ = none :=
        lookup_eq_none_of_not_contains rest k₂ (by simp [hnd.1])
      rw [mergeDeep_cons, lookup_mergeDeep_of_absent rest _ k₂ hrest,
        lookup_setKey_self]
    · simp [lookupJ, hk] at h
      rw [mergeDeep_cons, ih _ k v hnd.2 h,
        mergeAt_congr _ target k v (lookup_setKey_ne _ _ _ _ hk)]

theorem mergeDeep_of_disjoint (src : JMap) : ∀ (target : JMap),
    noDupKeys src = true →
    (∀ k, containsKey src k = true → lookupJ target k = none) →
    mergeDeep target src = appendJ target src := by
  induction src using jmapSpineInd with
  | hnil => intro target _ _; rw [appendJ_nil_right, mergeDeep_nil]
  | hcons k v rest ih =>
    intro target hnd hdis
    simp [noDupKeys] at hnd
    have hl : lookupJ target k = none := hdis k (by simp [containsKey])
    rw [mergeDeep_cons, mergeAt_of_none target k v hl,
      setKey_of_absent target k v hl, ih _ hnd.2]
    · rw [appendJ_assoc]
      rfl
    · intro k₂ hk₂
      have hne : k ≠ k₂ := by
        intro he
        subst he
        simp [hnd.1] at hk₂
      rw [lookup_appendJ_of_none _ _ _ (hdis k₂ (by simp [containsKey, hk₂]))]
      simp [lookupJ, hne]

theorem mergeDeep_nil_left (m : JMap) (h : noDupKeys m = true) :
    mergeDeep .nil m = m := by
  rw [mergeDeep_of_disjoint m .nil h (fun _ _ => rfl)]
  rfl

theorem mergeDeep_self_aux : ∀ (n : Nat) (src target : JMap), sizeFs src ≤ n →
    (∀ k v, entryMem src k v → lookupJ target k = some v) →
    WFfs src = true → mergeDeep target src = target := by
  intro n
  induction n with
  | zero => intro src _ hs _ _; have := sizeFs_pos src; omega
  | succ n ih =>
    intro src target hs hsub hwf
    cases src with
    | nil => rw [mergeDeep_nil]
    | cons k v rest =>
      simp [WFfs] at hwf
      have hlk : lookupJ target k = some v := hsub k v (Or.inl ⟨rfl, rfl⟩)
      have hstep : mergeAt target k v = v := by
        cases v with
        | leaf i => exact mergeAt_of_not_obj target k _ rfl
        | arr xs => exact mergeAt_of_not_obj target k _ rfl
        | obj s =>
          have hwv := hwf.1
          simp [WFv] at hwv
          have hss : mergeDeep s s = s := by
            apply ih s s
            · simp [sizeFs, sizeV] at hs
              have := sizeFs_pos rest
              omega
            · intro k₂ v₂ hm
              exact lookup_of_entryMem_nodup s k₂ v₂ hwv.1 hm
            · exact hwv.2
          rw [mergeAt_obj target k s s hlk, hss]
      rw [mergeDeep_cons, hstep, setKey_of_lookup target k v hlk]
      apply ih rest target
      · simp [sizeFs] at hs
        have := sizeV_pos v
        omega
      · intro k₂ v₂ hm
        exact hsub k₂ v₂ (Or.inr hm)
      · exact hwf.2

theorem mergeDeep_self (m : JMap) (h : WFmap m = true) : mergeDeep m m = m := by
  simp [WFmap] at h
  exact mergeDeep_self_aux (sizeFs m) m m le_rfl
    (fun k v hm => lookup_of_entryMem_nodup m k v h.1 hm) h.2

theorem mergeResolvers_nil (options : Option MergeResolversOptions) :
    mergeResolvers .nil options = .map .nil := rfl

theorem mergeResolvers_singleGroup (ds : RDefList) (options : Option MergeResolversOptions) :
    mergeResolvers (.cons (.group ds) .nil) options = mergeResolvers ds none := rfl

theorem mergeResolvers_single (d : ResolversDefinition) (options : Option MergeResolversOptions)
    (h : isGroup d = false) : mergeResolvers (.cons d .nil) options = d := by
  cases d <;> first
    | rfl
    | simp [isGroup] at h

theorem mergeResolvers_multi (d1 d2 : ResolversDefinition) (rest : RDefList)
    (options : Option MergeResolversOptions) :
    mergeResolvers (.cons d1 (.cons d2 rest)) options
      = applyExclusions (buildResult (flattenDefs (.cons d1 (.cons d2 rest)))) options := rfl

theorem mergeResolvers_eq_multi (defs : RDefList) (options : Option MergeResolversOptions)
    (h : 2 ≤ lengthRDs defs) :
    mergeResolvers defs options
      = applyExclusions (buildResult (flattenDefs defs)) options := by
  cases defs with
  | nil => simp [lengthRDs] at h
  | cons d1 rest =>
    cases rest with
    | nil => simp [lengthRDs] at h
    | cons d2 rest₂ => exact mergeResolvers_multi d1 d2 rest₂ options

theorem applyExclusions_none (r : ResolversDefinition) :
    applyExclusions r none = r := rfl

theorem applyExclusions_factory (f : List JVal → JMap)
    (options : Option MergeResolversOptions) :
    applyExclusions (.factory f) options = .factory f := by
  cases options with
  | none => rfl
  | some o =>
    cases o with
    | mk exs => cases exs <;> rfl

theorem applyExclusions_map (m : JMap) (exs : List String) :
    applyExclusions (.map m) (some ⟨some exs⟩) = .map (exs.foldl applyExclusion m) := rfl

theorem lengthRDs_append (a b : RDefList) :
    lengthRDs (appendRDs a b) = lengthRDs a + lengthRDs b := by
  induction a using rdefListSpineInd with
  | hnil => simp [appendRDs, lengthRDs]
  | hcons d rest ih => simp [appendRDs, lengthRDs, ih]; omega

theorem flattenDefs_append (a b : RDefList) :
    flattenDefs (appendRDs a b) = appendRDs (flattenDefs a) (flattenDefs b) := by
  induction a using rdefListSpineInd with
  | hnil => rfl
  | hcons d rest ih => simp [appendRDs, flattenDefs, ih]

theorem collectFactories_append (a b : RDefList) :
    collectFactories (appendRDs a b) = collectFactories a ++ collectFactories b := by
  induction a using rdefListSpineInd with
  | hnil => rfl
  | hcons d rest ih => cases d <;> simp [appendRDs, collectFactories, ih]

theorem collectResolvers_append (a b : RDefList) :
    collectResolvers (appendRDs a b) = collectResolvers a ++ collectResolvers b := by
  induction a using rdefListSpineInd with
  | hnil => rfl
  | hcons d rest ih => cases d <;> simp [appendRDs, collectResolvers, ih]

theorem foldl_mergeSrc_skip_none (a b : List (Option JMap)) (acc : JMap) :
    (a ++ none :: b).foldl mergeSrc acc = (a ++ b).foldl mergeSrc acc := by
  simp [List.foldl_append]
  rfl

theorem buildFrom_skip_none (CF : List (List JVal → JMap)) (a b : List (Option JMap)) :
    buildFrom CF (a ++ none :: b) = buildFrom CF (a ++ b) := by
  unfold buildFrom
  by_cases he : CF.isEmpty = true
  · rw [if_pos he, if_pos he, foldl_mergeSrc_skip_none]
  · rw [if_neg he, if_neg he]
    congr 1
    funext args
    calc ((a ++ none :: b) ++ CF.map (fun f => some (f args))).foldl mergeSrc .nil
        = (a ++ none :: (b ++ CF.map (fun f => some (f args)))).foldl mergeSrc .nil := by
          simp
      _ = (a ++ (b ++ CF.map (fun f => some (f args)))).foldl mergeSrc .nil :=
          foldl_mergeSrc_skip_none _ _ _
      _ = ((a ++ b) ++ CF.map (fun f => some (f args))).foldl mergeSrc .nil := by
          simp

theorem buildResult_drop (A B : RDefList) (jd : ResolversDefinition)
    (h : isDropped jd = true) :
    buildResult (appendRDs A (.cons jd B)) = buildResult (appendRDs A B) := by
  cases jd with
  | nullV =>
    simp only [buildResult, collectFactories_append, collectResolvers_append,
      collectFactories, collectResolvers]
    exact buildFrom_skip_none _ _ _
  | num i =>
    simp only [buildResult, collectFactories_append, collectResolvers_append,
      collectFactories, collectResolvers]
  | str s =>
    simp only [buildResult, collectFactories_append, collectResolvers_append,
      collectFactories, collectResolvers]
  | map m => simp [isDropped] at h
  | factory f => simp [isDropped] at h
  | group ds => simp [isDropped] at h

theorem flattenOne_map (m : JMap) : flattenOne (.map m) = .map m := rfl

theorem flattenDefs_mapsToDefs (ms : List JMap) :
    flattenDefs (mapsToDefs ms) = mapsToDefs ms := by
  induction ms with
  | nil => rfl
  | cons m rest ih => simp [mapsToDefs, flattenDefs, flattenOne_map, ih]

theorem collectFactories_mapsToDefs (ms : List JMap) :
    collectFactories (mapsToDefs ms) = [] := by
  induction ms with
  | nil => rfl
  | cons m rest ih => simp [mapsToDefs, collectFactories, ih]

theorem collectResolvers_mapsToDefs (ms : List JMap) :
    collectResolvers (mapsToDefs ms) = ms.map some := by
  induction ms with
  | nil => rfl
  | cons m rest ih => simp [mapsToDefs, collectResolvers, ih]

theorem foldl_mergeSrc_somes (ms : List JMap) : ∀ (acc : JMap),
    (ms.map some).foldl mergeSrc acc = ms.foldl mergeDeep acc := by
  induction ms with
  | nil => intro acc; rfl
  | cons m rest ih => intro acc; simp only [List.map_cons, List.foldl_cons]; exact ih _

theorem mk_data (s : String) : String.mk s.data = s := by
  cases s
  rfl

theorem data_append (s t : String) : (s ++ t).data = s.data ++ t.data := by
  cases s
  cases t
  rfl

theorem strAppend_assoc (a b c : String) : (a ++ b) ++ c = a ++ (b ++ c) := by
  cases a
  cases b
  cases c
  show String.mk _ = String.mk _
  simp [String.append]

theorem noDot_chars (s : String) (h : noDot s = true) : ∀ c ∈ s.data, c ≠ '.' := by
  simp [noDot, List.all_eq_true] at h
  intro c hc
  exact h c hc

theorem splitDotAux_no_dot (l : List Char) : ∀ (acc : List Char),
    (∀ c ∈ l, c ≠ '.') → splitDotAux l acc = [String.mk (acc.reverse ++ l)] := by
  induction l with
  | nil => intro acc _; simp [splitDotAux]
  | cons c cs ih =>
    intro acc h
    have hc : c ≠ '.' := h c (by simp)
    rw [splitDotAux, if_neg hc, ih (c :: acc) (fun c₂ hm => h c₂ (by simp [hm]))]
    simp

theorem splitDotAux_dot (l : List Char) : ∀ (r acc : List Char),
    (∀ c ∈ l, c ≠ '.') →
    splitDotAux (l ++ '.' :: r) acc
      = String.mk (acc.reverse ++ l) :: splitDotAux r [] := by
  induction l with
  | nil => intro r acc _; simp [splitDotAux]
  | cons c cs ih =>
    intro r acc h
    have hc : c ≠ '.' := h c (by simp)
    rw [List.cons_append, splitDotAux, if_neg hc,
      ih r (c :: acc) (fun c₂ hm => h c₂ (by simp [hm]))]
    simp

theorem splitOnDot_of_noDot (t : String) (h : noDot t = true) : splitOnDot t = [t] := by
  unfold splitOnDot
  rw [splitDotAux_no_dot t.data [] (noDot_chars t h)]
  simp [mk_data]

theorem splitOnDot_append (t r : String) (h : noDot t = true) :
    splitOnDot (t ++ "." ++ r) = t :: splitOnDot r := by
  unfold splitOnDot
  rw [data_append, data_append, show ("." : String).data = ['.'] from rfl,
    List.append_assoc, List.singleton_append,
    splitDotAux_dot t.data r.data [] (noDot_chars t h)]
  simp [mk_data]

theorem strAppend_empty (s : String) : s ++ "" = s := by
  cases s
  show String.mk _ = String.mk _
  simp [String.append]

theorem applyExclusion_noDot (m : JMap) (t : String) (h : noDot t = true) :
    applyExclusion m t = removeKey m t := by
  simp [applyExclusion, splitOnDot_of_noDot t h]

theorem applyExclusion_trailingDot (m : JMap) (t : String) (h : noDot t = true) :
    applyExclusion m (t ++ ".") = removeKey m t := by
  have hsplit : splitOnDot (t ++ ".") = [t, ""] := by
    have : splitOnDot (t ++ "." ++ "") = t :: splitOnDot "" := splitOnDot_append t "" h
    rw [strAppend_empty] at this
    rw [this]
    rfl
  simp [applyExclusion, hsplit]

theorem applyExclusion_star (m : JMap) (t : String) (h : noDot t = true) :
    applyExclusion m (t ++ "." ++ "*") = removeKey m t := by
  have hsplit : splitOnDot (t ++ "." ++ "*") = [t, "*"] := by
    rw [splitOnDot_append t "*" h]
    rfl
  simp [applyExclusion, hsplit]

theorem applyExclusion_field (m : JMap) (t f : String) (ht : noDot t = true)
    (hf : noDot f = true) (hne : f ≠ "") (hns : f ≠ "*") :
    applyExclusion m (t ++ "." ++ f) = deleteField m t f := by
  have hsplit : splitOnDot (t ++ "." ++ f) = [t, f] := by
    rw [splitOnDot_append t f ht, splitOnDot_of_noDot f hf]
  simp only [applyExclusion, hsplit]
  rw [if_neg (by simp [hne, hns])]
  rfl

theorem applyExclusion_extraDots (m : JMap) (t f g : String) (ht : noDot t = true)
    (hf : noDot f = true) (hne : f ≠ "") (hns : f ≠ "*") :
    applyExclusion m (t ++ "." ++ f ++ "." ++ g) = deleteField m t f := by
  have h1 : t ++ "." ++ f ++ "." ++ g = t ++ "." ++ (f ++ "." ++ g) := by
    simp [strAppend_assoc]
  have hsplit : splitOnDot (t ++ "." ++ f ++ "." ++ g) = t :: f :: splitOnDot g := by
    rw [h1, splitOnDot_append t _ ht, splitOnDot_append f g hf]
  simp only [applyExclusion, hsplit]
  rw [if_neg (by simp [hne, hns])]
  rfl

theorem sizeRD_pos (d : ResolversDefinition) : 1 ≤ sizeRD d := by
  cases d <;> simp [sizeRD]

theorem sizeRDs_pos (l : RDefList) : 1 ≤ sizeRDs l := by
  cases l <;> simp [sizeRDs] <;> omega

theorem flattenDefsWith_adequate (n : Nat)
    (ihn : ∀ (ds : RDefList) (options : Option MergeResolversOptions),
      sizeRDs ds ≤ n → mergeResolversFuel n ds options = some (mergeResolvers ds options)) :
    ∀ (l : RDefList), sizeRDs l ≤ n + 1 →
    flattenDefsWith
        (fun d => match d with
          | .group ds => mergeResolversFuel n ds none
          | d => some d) l
      = some (flattenDefs l) := by
  intro l
  induction l using rdefListSpineInd with
  | hnil => intro _; rfl
  | hcons d rest ih =>
    intro h
    simp only [sizeRDs] at h
    have hrest : sizeRDs rest ≤ n + 1 := by
      have := sizeRD_pos d
      omega
    cases d with
    | group ds =>
      have hds : sizeRDs ds ≤ n := by
        simp only [sizeRD] at h
        have := sizeRDs_pos rest
        omega
      simp only [flattenDefsWith, ih hrest, ihn ds none hds]
      rfl
    | map m =>
      simp only [flattenDefsWith, ih hrest]
      rfl
    | factory f =>
      simp only [flattenDefsWith, ih hrest]
      rfl
    | nullV =>
      simp only [flattenDefsWith, ih hrest]
      rfl
    | num i =>
      simp only [flattenDefsWith, ih hrest]
      rfl
    | str s =>
      simp only [flattenDefsWith, ih hrest]
      rfl

theorem mergeResolversFuel_adequate : ∀ (n : Nat) (defs : RDefList)
    (options : Option MergeResolversOptions), sizeRDs defs ≤ n →
    mergeResolversFuel n defs options = some (mergeResolvers defs options) := by
  intro n
  induction n with
  | zero => intro defs _ h; have := sizeRDs_pos defs; omega
  | succ n ih =>
    intro defs options h
    cases defs with
    | nil => rfl
    | cons d1 rest =>
      cases rest with
      | nil =>
        cases d1 with
        | group ds =>
          have hds : sizeRDs ds ≤ n := by
            simp [sizeRDs, sizeRD] at h
            omega
          show mergeResolversFuel n ds none
              = some (mergeResolvers (.cons (.group ds) .nil) options)
          rw [mergeResolvers_singleGroup, ih ds none hds]
        | map m => rfl
        | factory f => rfl
        | nullV => rfl
        | num i => rfl
        | str s => rfl
      | cons d2 rest₂ =>
        have hflat := flattenDefsWith_adequate n (fun ds options hds => ih ds options hds)
          (.cons d1 (.cons d2 rest₂)) h
        simp only [mergeResolversFuel, hflat]
        rw [mergeResolvers_multi]

/-- C9: for every call where the definitions sequence is empty or absent
(`undefined`/`null`), the result is an empty Map, regardless of any
`options.exclusions` given. -/
theorem mergeResolvers_emptyInput (options : Option MergeResolversOptions) :
    mergeResolversJS none options = .map .nil
    ∧ mergeResolversJS (some .nil) options = .map .nil :=
  ⟨rfl, rfl⟩

/-- C4: a call whose definitions sequence contains exactly one element that
is not a Group returns that element unchanged: no merging is performed and
no exclusion processing is applied, even if `options.exclusions` is given. -/
theorem mergeResolvers_singlePassthrough (d : ResolversDefinition)
    (options : Option MergeResolversOptions) (h : isGroup d = false) :
    mergeResolvers (.cons d .nil) options = d :=
  mergeResolvers_single d options h

/-- C4 witness: a single concrete Map is returned structurally unchanged
even though exclusions are configured. -/
theorem mergeResolvers_singlePassthrough_witness :
    isGroup (.map (.cons "A" (.obj (.cons "x" (.leaf 1) .nil)) .nil)) = false
    ∧ mergeResolvers
        (.cons (.map (.cons "A" (.obj (.cons "x" (.leaf 1) .nil)) .nil)) .nil)
        (some ⟨some ["A.x", "A"]⟩)
      = .map (.cons "A" (.obj (.cons "x" (.leaf 1) .nil)) .nil) :=
  ⟨rfl, mergeResolvers_singlePassthrough _ _ rfl⟩

/-- C5: a call whose single element is a Group equals the call on the
flattened sequence, and the outer call's exclusions are not passed into
this recursive unwrap (the recursion uses no options), so they are
bypassed on this path. -/
theorem mergeResolvers_singleGroupUnwrap (ds : RDefList)
    (options : Option MergeResolversOptions) :
    mergeResolvers (.cons (.group ds) .nil) options = mergeResolvers ds none := rfl

/-- C8: merging an already-merged (duplicate-key-free) Map with itself
yields a value structurally equal to that Map. -/
theorem mergeResolvers_selfMergeIdem (R : JMap) (h : WFmap R = true) :
    mergeResolvers (.cons (.map R) (.cons (.map R) .nil)) none = .map R := by
  have hnd : noDupKeys R = true := by
    simp [WFmap] at h
    exact h.1
  calc mergeResolvers (.cons (.map R) (.cons (.map R) .nil)) none
      = .map (mergeDeep (mergeDeep .nil R) R) := rfl
    _ = .map (mergeDeep R R) := by rw [mergeDeep_nil_left R hnd]
    _ = .map R := by rw [mergeDeep_self R h]

/-- C8 witness: a concrete well-formed merged Map is unchanged when merged
with itself. -/
theorem mergeResolvers_selfMergeIdem_witness :
    WFmap (.cons "A" (.obj (.cons "x" (.leaf 1) .nil))
      (.cons "B" (.obj (.cons "y" (.leaf 2) .nil)) .nil)) = true
    ∧ mergeResolvers
        (.cons (.map (.cons "A" (.obj (.cons "x" (.leaf 1) .nil))
            (.cons "B" (.obj (.cons "y" (.leaf 2) .nil)) .nil)))
          (.cons (.map (.cons "A" (.obj (.cons "x" (.leaf 1) .nil))
            (.cons "B" (.obj (.cons "y" (.leaf 2) .nil)) .nil))) .nil)) none
      = .map (.cons "A" (.obj (.cons "x" (.leaf 1) .nil))
          (.cons "B" (.obj (.cons "y" (.leaf 2) .nil)) .nil)) :=
  ⟨rfl, mergeResolvers_selfMergeIdem _ rfl⟩

/-- C10: the recursion of `mergeResolvers` terminates within a step budget
bounded by the nesting structure of its (finite, acyclic) input: the
step-counting variant run with any fuel at least `sizeRDs defs` never
exhausts its budget and computes the total function's value. -/
theorem mergeResolvers_terminates (n : Nat) (defs : RDefList)
    (options : Option MergeResolversOptions) (h : sizeRDs defs ≤ n) :
    mergeResolversFuel n defs options = some (mergeResolvers defs options) :=
  mergeResolversFuel_adequate n defs options h

/-- C10 witness: a doubly nested Group input is merged within a budget of
thirty steps. -/
theorem mergeResolvers_terminates_witness :
    sizeRDs (.cons (.group (.cons (.group (.cons (.map (.cons "A" (.leaf 1) .nil)) .nil))
        (.cons (.map (.cons "B" (.leaf 2) .nil)) .nil))) .nil) ≤ 30
    ∧ mergeResolversFuel 30
        (.cons (.group (.cons (.group (.cons (.map (.cons "A" (.leaf 1) .nil)) .nil))
          (.cons (.map (.cons "B" (.leaf 2) .nil)) .nil))) .nil) none
      = some (mergeResolvers
          (.cons (.group (.cons (.group (.cons (.map (.cons "A" (.leaf 1) .nil)) .nil))
            (.cons (.map (.cons "B" (.leaf 2) .nil)) .nil))) .nil) none) :=
  ⟨by decide, mergeResolvers_terminates 30 _ none (by decide)⟩

/-- C7: in a call with two or more definitions, a definition that after
Group-flattening is neither a function nor a plain object (for example
`null`, a number, or a string) contributes nothing to the merge: removing
it from the input leaves the result unchanged, and no error is raised
(the function is total). -/
theorem mergeResolvers_dropsJunk (l1 l2 : RDefList) (j : ResolversDefinition)
    (options : Option MergeResolversOptions)
    (h2 : 2 ≤ lengthRDs (appendRDs l1 l2)) (hj : isDropped (flattenOne j) = true) :
    mergeResolvers (appendRDs l1 (.cons j l2)) options
      = mergeResolvers (appendRDs l1 l2) options := by
  have h3 : 2 ≤ lengthRDs (appendRDs l1 (.cons j l2)) := by
    rw [lengthRDs_append] at h2
    rw [lengthRDs_append, show lengthRDs (.cons j l2) = 1 + lengthRDs l2 from rfl]
    omega
  rw [mergeResolvers_eq_multi _ options h3, mergeResolvers_eq_multi _ options h2]
  rw [flattenDefs_append, flattenDefs_append,
    show flattenDefs (.cons j l2) = .cons (flattenOne j) (flattenDefs l2) from rfl,
    buildResult_drop (flattenDefs l1) (flattenDefs l2) (flattenOne j) hj]

/-- C7 witness: a number interleaved between two Maps is dropped; the merge
(with exclusions configured) is the same with and without it. -/
theorem mergeResolvers_dropsJunk_witness :
    2 ≤ lengthRDs (appendRDs (.cons (.map (.cons "A" (.obj (.cons "x" (.leaf 1) .nil)) .nil)) .nil)
        (.cons (.map (.cons "B" (.obj (.cons "y" (.leaf 2) .nil)) .nil)) .nil))
    ∧ isDropped (flattenOne (.num 5)) = true
    ∧ mergeResolvers
        (appendRDs (.cons (.map (.cons "A" (.obj (.cons "x" (.leaf 1) .nil)) .nil)) .nil)
          (.cons (.num 5)
            (.cons (.map (.cons "B" (.obj (.cons "y" (.leaf 2) .nil)) .nil)) .nil)))
        (some ⟨some ["A"]⟩)
      = mergeResolvers
          (appendRDs (.cons (.map (.cons "A" (.obj (.cons "x" (.leaf 1) .nil)) .nil)) .nil)
            (.cons (.map (.cons "B" (.obj (.cons "y" (.leaf 2) .nil)) .nil)) .nil))
          (some ⟨some ["A"]⟩) :=
  ⟨by decide, rfl, mergeResolvers_dropsJunk _ _ _ _ (by decide) rfl⟩

/-- C1: with two or more definitions of which at least one (after
flattening Groups) is a Factory, the result is a Factory; invoking it with
any runtime arguments applies every collected factory to those same
arguments in their original relative order and returns the left-to-right
deep-merge, starting from an empty Map, of all directly-supplied Maps
followed by all Factory-produced Maps; exclusions in the options have no
effect on the returned definition (the result equals the result of the
same call without options). -/
theorem mergeResolvers_factoryBranch (d1 d2 : ResolversDefinition) (rest : RDefList)
    (options : Option MergeResolversOptions)
    (hf : (collectFactories (flattenDefs (.cons d1 (.cons d2 rest)))).isEmpty = false) :
    mergeResolvers (.cons d1 (.cons d2 rest)) options
      = .factory (fun args =>
          (collectResolvers (flattenDefs (.cons d1 (.cons d2 rest)))
            ++ (collectFactories (flattenDefs (.cons d1 (.cons d2 rest)))).map
                (fun f => some (f args))).foldl mergeSrc .nil)
    ∧ mergeResolvers (.cons d1 (.cons d2 rest)) options
      = mergeResolvers (.cons d1 (.cons d2 rest)) none := by
  have hb : buildResult (flattenDefs (.cons d1 (.cons d2 rest)))
      = .factory (fun args =>
          (collectResolvers (flattenDefs (.cons d1 (.cons d2 rest)))
            ++ (collectFactories (flattenDefs (.cons d1 (.cons d2 rest)))).map
                (fun f => some (f args))).foldl mergeSrc .nil) := by
    simp only [buildResult, buildFrom]
    rw [if_neg (by simp [hf])]
  constructor
  · rw [mergeResolvers_multi, hb, applyExclusions_factory]
  · rw [mergeResolvers_multi, hb, applyExclusions_factory,
      mergeResolvers_multi, hb, applyExclusions_factory]

/-- C1 witness: one Map and one Factory with exclusions configured. -/
theorem mergeResolvers_factoryBranch_witness :
    (collectFactories (flattenDefs
        (.cons (.map (.cons "A" (.obj (.cons "x" (.leaf 1) .nil)) .nil))
          (.cons (.factory (fun _ => .cons "A" (.obj (.cons "x" (.leaf 2) .nil)) .nil))
            .nil)))).isEmpty = false
    ∧ (mergeResolvers
          (.cons (.map (.cons "A" (.obj (.cons "x" (.leaf 1) .nil)) .nil))
            (.cons (.factory (fun _ => .cons "A" (.obj (.cons "x" (.leaf 2) .nil)) .nil))
              .nil))
          (some ⟨some ["A"]⟩)
        = .factory (fun args =>
            (collectResolvers (flattenDefs
                (.cons (.map (.cons "A" (.obj (.cons "x" (.leaf 1) .nil)) .nil))
                  (.cons (.factory (fun _ => .cons "A" (.obj (.cons "x" (.leaf 2) .nil)) .nil))
                    .nil)))
              ++ (collectFactories (flattenDefs
                  (.cons (.map (.cons "A" (.obj (.cons "x" (.leaf 1) .nil)) .nil))
                    (.cons (.factory (fun _ => .cons "A" (.obj (.cons "x" (.leaf 2) .nil)) .nil))
                      .nil)))).map (fun f => some (f args))).foldl mergeSrc .nil)
      ∧ mergeResolvers
          (.cons (.map (.cons "A" (.obj (.cons "x" (.leaf 1) .nil)) .nil))
            (.cons (.factory (fun _ => .cons "A" (.obj (.cons "x" (.leaf 2) .nil)) .nil))
              .nil))
          (some ⟨some ["A"]⟩)
        = mergeResolvers
            (.cons (.map (.cons "A" (.obj (.cons "x" (.leaf 1) .nil)) .nil))
              (.cons (.factory (fun _ => .cons "A" (.obj (.cons "x" (.leaf 2) .nil)) .nil))
                .nil))
            none) :=
  ⟨rfl, mergeResolvers_factoryBranch _ _ _ _ rfl⟩

theorem lengthRDs_mapsToDefs (ms : List JMap) :
    lengthRDs (mapsToDefs ms) = ms.length := by
  induction ms with
  | nil => rfl
  | cons m rest ih => simp [mapsToDefs, lengthRDs, ih]; omega

theorem mergeResolvers_maps_eq (ms : List JMap) (h2 : 2 ≤ ms.length) :
    mergeResolvers (mapsToDefs ms) none = .map (ms.foldl mergeDeep .nil) := by
  rw [mergeResolvers_eq_multi (mapsToDefs ms) none
      (by rw [lengthRDs_mapsToDefs]; exact h2),
    flattenDefs_mapsToDefs]
  simp only [buildResult, collectFactories_mapsToDefs, collectResolvers_mapsToDefs,
    buildFrom, List.isEmpty_nil, if_true, foldl_mergeSrc_somes]
  rfl

/-- C2: a call on two or more Map definitions (no Factory) returns the
left-to-right deep-merge of the Maps starting from an empty Map; on a key
collision the later definition's field value overrides the earlier one
(looked up in the merged result, the last Map's non-mapping field value
wins); in particular merging `{Type:{f:1}}` then `{Type:{f:2}}` yields
`{Type:{f:2}}`. -/
theorem mergeResolvers_mapsDeepMerge (ms init : List JMap) (mlast : JMap)
    (h2 : 2 ≤ ms.length) (hsplit : ms = init ++ [mlast])
    (hnd : noDupKeys mlast = true) :
    mergeResolvers (mapsToDefs ms) none = .map (ms.foldl mergeDeep .nil)
    ∧ (∀ (t f : String) (fm2 : JMap) (v : JVal), noDupKeys fm2 = true →
        lookupJ mlast t = some (.obj fm2) → lookupJ fm2 f = some v →
        isObjV v = false →
        lookupField (ms.foldl mergeDeep .nil) t f = some v)
    ∧ mergeResolvers (mapsToDefs
        [.cons "Type" (.obj (.cons "f" (.leaf 1) .nil)) .nil,
         .cons "Type" (.obj (.cons "f" (.leaf 2) .nil)) .nil]) none
      = .map (.cons "Type" (.obj (.cons "f" (.leaf 2) .nil)) .nil) := by
  refine ⟨mergeResolvers_maps_eq ms h2, ?_, rfl⟩
  intro t f fm2 v hndf hl hf hv
  subst hsplit
  rw [List.foldl_append, List.foldl_cons, List.foldl_nil]
  have htop : lookupJ (mergeDeep (init.foldl mergeDeep .nil) mlast) t
      = some (mergeAt (init.foldl mergeDeep .nil) t (.obj fm2)) :=
    lookup_mergeDeep_of_mem mlast _ t _ hnd hl
  rcases hA : lookupJ (init.foldl mergeDeep .nil) t with _ | w
  · rw [lookupField, htop, mergeAt_of_none _ t _ hA]
    exact hf
  · cases w with
    | obj t1 =>
      rw [lookupField, htop, mergeAt_obj _ t t1 fm2 hA]
      show lookupJ (mergeDeep t1 fm2) f = some v
      rw [lookup_mergeDeep_of_mem fm2 t1 f v hndf hf,
        mergeAt_of_not_obj t1 f v hv]
    | leaf i =>
      rw [lookupField, htop, mergeAt_of_target_not_obj _ t _ _ hA rfl]
      exact hf
    | arr xs =>
      rw [lookupField, htop, mergeAt_of_target_not_obj _ t _ _ hA rfl]
      exact hf

/-- C2 witness: two concrete colliding Maps. -/
theorem mergeResolvers_mapsDeepMerge_witness :
    2 ≤ ([.cons "Type" (.obj (.cons "f" (.leaf 1) .nil)) .nil,
          .cons "Type" (.obj (.cons "f" (.leaf 2) .nil)) .nil] : List JMap).length
    ∧ noDupKeys (.cons "Type" (.obj (.cons "f" (.leaf 2) .nil)) .nil) = true
    ∧ (mergeResolvers (mapsToDefs
          [.cons "Type" (.obj (.cons "f" (.leaf 1) .nil)) .nil,
           .cons "Type" (.obj (.cons "f" (.leaf 2) .nil)) .nil]) none
        = .map ([.cons "Type" (.obj (.cons "f" (.leaf 1) .nil)) .nil,
            .cons "Type" (.obj (.cons "f" (.leaf 2) .nil)) .nil].foldl mergeDeep .nil)
      ∧ (∀ (t f : String) (fm2 : JMap) (v : JVal), noDupKeys fm2 = true →
          lookupJ (.cons "Type" (.obj (.cons "f" (.leaf 2) .nil)) .nil) t
            = some (.obj fm2) →
          lookupJ fm2 f = some v → isObjV v = false →
          lookupField ([.cons "Type" (.obj (.cons "f" (.leaf 1) .nil)) .nil,
              .cons "Type" (.obj (.cons "f" (.leaf 2) .nil)) .nil].foldl mergeDeep .nil)
            t f = some v)
      ∧ mergeResolvers (mapsToDefs
          [.cons "Type" (.obj (.cons "f" (.leaf 1) .nil)) .nil,
           .cons "Type" (.obj (.cons "f" (.leaf 2) .nil)) .nil]) none
        = .map (.cons "Type" (.obj (.cons "f" (.leaf 2) .nil)) .nil)) :=
  ⟨by decide, rfl,
    mergeResolvers_mapsDeepMerge
      [.cons "Type" (.obj (.cons "f" (.leaf 1) .nil)) .nil,
       .cons "Type" (.obj (.cons "f" (.leaf 2) .nil)) .nil]
      [.cons "Type" (.obj (.cons "f" (.leaf 1) .nil)) .nil]
      (.cons "Type" (.obj (.cons "f" (.leaf 2) .nil)) .nil)
      (by decide) rfl rfl⟩

/-- C3 counterexample: the exclusion strings `"A."` and `"B.x.y"` refute
the claimed processing.  The code splits on every '.' and treats an empty
second segment as falsy: `"A."` deletes the whole entry `A` (the claim
says only the field named by the empty string after the dot is deleted),
and `"B.x.y"` deletes field `x` of `B` (the claim says the field named by
the entire part after the first dot, `"x.y"`, is deleted).  The merged
result of the two Maps processed as the claim describes
(`applyExclusionClaimed`) therefore differs from what `mergeResolvers`
returns. -/
theorem mergeResolvers_exclusionSplit_cex :
    mergeResolvers
        (.cons (.map (.cons "A" (.obj (.cons "" (.leaf 1) .nil)) .nil))
          (.cons (.map (.cons "B"
            (.obj (.cons "x" (.leaf 2) (.cons "x.y" (.leaf 3) .nil))) .nil)) .nil))
        (some ⟨some ["A.", "B.x.y"]⟩)
      ≠ .map (["A.", "B.x.y"].foldl applyExclusionClaimed
          (mergeDeep
            (mergeDeep .nil (.cons "A" (.obj (.cons "" (.leaf 1) .nil)) .nil))
            (.cons "B" (.obj (.cons "x" (.leaf 2) (.cons "x.y" (.leaf 3) .nil)))
              .nil))) := by
  intro h
  exact absurd (congrArg (fun r => hasTopLevelKey r "A") h) (by decide)

/-- C3 amended: with two or more definitions whose merged result is a Map
and `options.exclusions` given, the exclusions are applied in order to the
merged Map by `applyExclusion`; each exclusion string is split at EVERY
'.', `TypeName` being the first segment and the field name the second
(segments after the second are ignored); if there is no second segment, or
it is empty, or it is `*`, the entire top-level entry for `TypeName` is
deleted (a no-op if absent); otherwise `result[TypeName][fieldName]` is
deleted only if `result[TypeName]` exists (a no-op otherwise, with no
error if the field is absent). -/
theorem mergeResolvers_exclusionSplit_amended :
    (∀ (d1 d2 : ResolversDefinition) (rest : RDefList) (exs : List String),
      (collectFactories (flattenDefs (.cons d1 (.cons d2 rest)))).isEmpty = true →
      mergeResolvers (.cons d1 (.cons d2 rest)) (some ⟨some exs⟩)
        = .map (exs.foldl applyExclusion
            ((collectResolvers (flattenDefs (.cons d1 (.cons d2 rest)))).foldl
              mergeSrc .nil)))
    ∧ (∀ (m : JMap) (t : String), noDot t = true →
        applyExclusion m t = removeKey m t)
    ∧ (∀ (m : JMap) (t : String), noDot t = true →
        applyExclusion m (t ++ ".") = removeKey m t)
    ∧ (∀ (m : JMap) (t : String), noDot t = true →
        applyExclusion m (t ++ "." ++ "*") = removeKey m t)
    ∧ (∀ (m : JMap) (t f : String), noDot t = true → noDot f = true →
        f ≠ "" → f ≠ "*" →
        applyExclusion m (t ++ "." ++ f) = deleteField m t f)
    ∧ (∀ (m : JMap) (t f g : String), noDot t = true → noDot f = true →
        f ≠ "" → f ≠ "*" →
        applyExclusion m (t ++ "." ++ f ++ "." ++ g) = deleteField m t f) := by
  refine ⟨?_, applyExclusion_noDot, applyExclusion_trailingDot,
    applyExclusion_star, applyExclusion_field, applyExclusion_extraDots⟩
  intro d1 d2 rest exs hfac
  rw [mergeResolvers_multi]
  simp only [buildResult, buildFrom]
  rw [if_pos hfac, applyExclusions_map]

/-- C3 amended witness: concrete instances of the exclusion behavior — a
merged two-Map result with a field exclusion applied, the whole-type
deletion for a trailing-dot string, and the third-segment discard. -/
theorem mergeResolvers_exclusionSplit_amended_witness :
    List.isEmpty (collectFactories (flattenDefs
        (.cons (.map (.cons "A" (.obj (.cons "x" (.leaf 1) .nil)) .nil))
          (.cons (.map (.cons "B" (.obj (.cons "y" (.leaf 2) .nil)) .nil)) .nil))))
      = true
    ∧ mergeResolvers
        (.cons (.map (.cons "A" (.obj (.cons "x" (.leaf 1) .nil)) .nil))
          (.cons (.map (.cons "B" (.obj (.cons "y" (.leaf 2) .nil)) .nil)) .nil))
        (some ⟨some ["A.x"]⟩)
      = .map (["A.x"].foldl applyExclusion
          ((collectResolvers (flattenDefs
            (.cons (.map (.cons "A" (.obj (.cons "x" (.leaf 1) .nil)) .nil))
              (.cons (.map (.cons "B" (.obj (.cons "y" (.leaf 2) .nil)) .nil))
                .nil)))).foldl mergeSrc .nil))
    ∧ applyExclusion (.cons "A" (.obj (.cons "" (.leaf 1) .nil)) .nil) ("A" ++ ".")
      = removeKey (.cons "A" (.obj (.cons "" (.leaf 1) .nil)) .nil) "A"
    ∧ applyExclusion
        (.cons "B" (.obj (.cons "x" (.leaf 2) (.cons "x.y" (.leaf 3) .nil))) .nil)
        ("B" ++ "." ++ "x" ++ "." ++ "y")
      = deleteField
          (.cons "B" (.obj (.cons "x" (.leaf 2) (.cons "x.y" (.leaf 3) .nil))) .nil)
          "B" "x" :=
  ⟨rfl,
    mergeResolvers_exclusionSplit_amended.1 _ _ _ ["A.x"] rfl,
    mergeResolvers_exclusionSplit_amended.2.2.1 _ "A" rfl,
    mergeResolvers_exclusionSplit_amended.2.2.2.2.2 _ "B" "x" "y" rfl rfl
      (by decide) (by decide)⟩
